import Mathlib

/-!
A shallow embedding of the process-group aggregation engine and the durable
suspend/resume scheduler of `src/os_project/task_manager.py`, together with
proofs about its behaviour.

Conventions of the embedding:
* Python floats are modelled as rationals.
* Python process ids are natural numbers.
* Python dicts (insertion ordered) are modelled as association lists with an
  insertion-ordered update operation.
* The effectful parts (psutil calls, the persisted file, messageboxes) are
  modelled by explicit success oracles and event traces.
-/

/-- Modelling Python `str.lower` as used on process names: character-wise
lowercasing. -/
def pyLower (s : String) : String := String.mk (s.data.map Char.toLower)

/-- Modelling Python `str.strip`: remove leading and trailing whitespace. -/
def pyStrip (s : String) : String :=
  String.mk (((s.data.dropWhile Char.isWhitespace).reverse.dropWhile
    Char.isWhitespace).reverse)

/-- Modelling Python `str.endswith`. -/
def pyEndsWith (s suf : String) : Bool := suf.data.isSuffixOf s.data

/-- Modelling Python `int()` applied to a float: truncation toward zero. -/
def pyInt (q : ℚ) : ℤ := if q < 0 then -(⌊-q⌋) else ⌊q⌋

-- ## Facts about decimal digit strings (`str(pid)` is `Nat.repr pid`)

theorem toDigitsCore_eq_append (fuel : Nat) : ∀ (n : Nat) (ds : List Char),
    ∃ l, Nat.toDigitsCore 10 fuel n ds = l ++ ds ∧
      ∀ c ∈ l, ∃ m, m < 10 ∧ c = Nat.digitChar m := by
  induction fuel with
  | zero => intro n ds; exact ⟨[], rfl, by simp⟩
  | succ fuel ih =>
    intro n ds
    by_cases h : n / 10 = 0
    · refine ⟨[Nat.digitChar (n % 10)], by simp [Nat.toDigitsCore, h], ?_⟩
      intro c hc
      simp only [List.mem_singleton] at hc
      exact ⟨n % 10, Nat.mod_lt _ (by norm_num), hc⟩
    · obtain ⟨l, hl, hall⟩ := ih (n / 10) (Nat.digitChar (n % 10) :: ds)
      refine ⟨l ++ [Nat.digitChar (n % 10)], ?_, ?_⟩
      · simp only [Nat.toDigitsCore, h, if_false]
        rw [hl]; simp
      · intro c hc
        rcases List.mem_append.mp hc with hc | hc
        · exact hall c hc
        · simp only [List.mem_singleton] at hc
          exact ⟨n % 10, Nat.mod_lt _ (by norm_num), hc⟩

theorem repr_chars_are_digits (n : Nat) :
    ∀ c ∈ (Nat.repr n).data, ∃ m, m < 10 ∧ c = Nat.digitChar m := by
  obtain ⟨l, hl, hall⟩ := toDigitsCore_eq_append (n + 1) n []
  intro c hc
  have : (Nat.repr n).data = l := by
    simp only [Nat.repr, Nat.toDigits, List.asString] at *
    rw [hl]; simp
  rw [this] at hc
  exact hall c hc

theorem underscore_not_mem_repr (n : Nat) : '_' ∉ (Nat.repr n).data := by
  intro hmem
  obtain ⟨m, hm, heq⟩ := repr_chars_are_digits n '_' hmem
  have : ∀ m, m < 10 → Nat.digitChar m ≠ '_' := by decide
  exact this m hm heq.symm

theorem repr_getLast_digit (n : Nat) :
    ∃ m, m < 10 ∧ (Nat.repr n).data.getLast? = some (Nat.digitChar m) := by
  refine ⟨n % 10, Nat.mod_lt _ (by norm_num), ?_⟩
  have hunfold : Nat.toDigits 10 n =
      if n / 10 = 0 then [Nat.digitChar (n % 10)]
      else Nat.toDigitsCore 10 n (n / 10) [Nat.digitChar (n % 10)] := by
    simp [Nat.toDigits, Nat.toDigitsCore]
  simp only [Nat.repr, List.asString]
  by_cases h : n / 10 = 0
  · rw [hunfold, if_pos h]; rfl
  · rw [hunfold, if_neg h]
    obtain ⟨l, hl, -⟩ := toDigitsCore_eq_append n (n / 10) [Nat.digitChar (n % 10)]
    rw [hl, List.getLast?_append]
    rfl

-- ## Value of a digit string, used to show decimal representations are injective

def digitVal (c : Char) : ℕ := c.toNat - '0'.toNat

def digitsVal (l : List Char) : ℕ := l.foldl (fun a c => a * 10 + digitVal c) 0

theorem digitsVal_foldl_init (l : List Char) : ∀ a : ℕ,
    l.foldl (fun a c => a * 10 + digitVal c) a = a * 10 ^ l.length + digitsVal l := by
  induction l with
  | nil => intro a; simp [digitsVal]
  | cons c t ih =>
    intro a
    simp only [List.foldl_cons, digitsVal, List.length_cons]
    rw [ih (a * 10 + digitVal c), ih (0 * 10 + digitVal c)]
    ring

theorem digitVal_digitChar : ∀ m, m < 10 → digitVal (Nat.digitChar m) = m := by decide

theorem digitsVal_digitChar_cons (m : Nat) (hm : m < 10) (ds : List Char) :
    digitsVal (Nat.digitChar m :: ds) = m * 10 ^ ds.length + digitsVal ds := by
  simp only [digitsVal, List.foldl_cons]
  rw [digitsVal_foldl_init ds (0 * 10 + digitVal (Nat.digitChar m))]
  rw [digitVal_digitChar m hm]
  ring_nf
  rfl

theorem toDigitsCore_val (fuel : Nat) : ∀ (n : Nat) (ds : List Char), n < fuel →
    digitsVal (Nat.toDigitsCore 10 fuel n ds) = n * 10 ^ ds.length + digitsVal ds := by
  induction fuel with
  | zero => intro n ds h; omega
  | succ fuel ih =>
    intro n ds h
    by_cases h0 : n / 10 = 0
    · simp only [Nat.toDigitsCore, h0, if_true]
      rw [digitsVal_digitChar_cons (n % 10) (Nat.mod_lt _ (by norm_num))]
      have : n % 10 = n := Nat.mod_eq_of_lt (by omega)
      rw [this]
    · simp only [Nat.toDigitsCore, h0, if_false]
      have hrec : n / 10 < fuel := by
        have h1 : n / 10 < n := Nat.div_lt_self (by omega) (by norm_num)
        omega
      rw [ih (n / 10) (Nat.digitChar (n % 10) :: ds) hrec]
      rw [digitsVal_digitChar_cons (n % 10) (Nat.mod_lt _ (by norm_num))]
      simp only [List.length_cons]
      have hmod : n / 10 * 10 + n % 10 = n := by omega
      calc n / 10 * 10 ^ (ds.length + 1) + (n % 10 * 10 ^ ds.length + digitsVal ds)
          = (n / 10 * 10 + n % 10) * 10 ^ ds.length + digitsVal ds := by ring
        _ = n * 10 ^ ds.length + digitsVal ds := by rw [hmod]

theorem digitsVal_repr (n : Nat) : digitsVal (Nat.repr n).data = n := by
  have := toDigitsCore_val (n + 1) n [] (Nat.lt_succ_self n)
  simp only [Nat.repr, Nat.toDigits, List.asString]
  simpa [digitsVal] using this

theorem repr_injective {a b : Nat} (h : Nat.repr a = Nat.repr b) : a = b := by
  have hdata : (Nat.repr a).data = (Nat.repr b).data := by rw [h]
  have := digitsVal_repr a
  rw [hdata, digitsVal_repr b] at this
  exact this.symm

-- ## Association lists (insertion-ordered dict model)

def alookup {α β : Type} [DecidableEq α] (k : α) : List (α × β) → Option β
  | [] => none
  | (k', v) :: rest => if k = k' then some v else alookup k rest

def aset {α β : Type} [DecidableEq α] (k : α) (v : β) : List (α × β) → List (α × β)
  | [] => [(k, v)]
  | (k', v') :: rest => if k = k' then (k, v) :: rest else (k', v') :: aset k v rest

theorem alookup_mem {α β : Type} [DecidableEq α] {k : α} {v : β} :
    ∀ {l : List (α × β)}, alookup k l = some v → (k, v) ∈ l := by
  intro l
  induction l with
  | nil => intro h; simp [alookup] at h
  | cons p rest ih =>
    intro h
    obtain ⟨k', v'⟩ := p
    by_cases hk : k = k'
    · simp [alookup, hk] at h
      subst hk; subst h; exact List.mem_cons_self _ _
    · simp [alookup, hk] at h
      exact List.mem_cons_of_mem _ (ih h)

theorem mem_aset {α β : Type} [DecidableEq α] {k a : α} {v b : β} :
    ∀ {l : List (α × β)}, (a, b) ∈ aset k v l → (a = k ∧ b = v) ∨ (a, b) ∈ l := by
  intro l
  induction l with
  | nil => intro h; simp [aset] at h; exact Or.inl h
  | cons p rest ih =>
    intro h
    obtain ⟨k', v'⟩ := p
    by_cases hk : k = k'
    · subst hk
      simp only [aset, if_pos rfl] at h
      rcases List.mem_cons.mp h with h | h
      · exact Or.inl (by simpa using h)
      · exact Or.inr (List.mem_cons_of_mem _ h)
    · simp only [aset, if_neg hk] at h
      rcases List.mem_cons.mp h with h | h
      · exact Or.inr (by simp [h])
      · rcases ih h with h | h
        · exact Or.inl h
        · exact Or.inr (List.mem_cons_of_mem _ h)

theorem aset_of_not_mem {α β : Type} [DecidableEq α] {k : α} (v : β) :
    ∀ {l : List (α × β)}, k ∉ l.map Prod.fst → aset k v l = l ++ [(k, v)] := by
  intro l
  induction l with
  | nil => intro _; rfl
  | cons p rest ih =>
    intro h
    obtain ⟨k', v'⟩ := p
    simp only [List.map_cons, List.mem_cons] at h
    push_neg at h
    simp only [aset, if_neg h.1, List.cons_append]
    rw [ih h.2]

theorem alookup_of_nodup_mem {α β : Type} [DecidableEq α] :
    ∀ {l : List (α × β)}, (l.map Prod.fst).Nodup →
      ∀ {k : α} {v : β}, (k, v) ∈ l → alookup k l = some v := by
  intro l
  induction l with
  | nil => intro _ k v h; simp at h
  | cons p rest ih =>
    intro hnd k v h
    obtain ⟨k', v'⟩ := p
    simp only [List.map_cons, List.nodup_cons] at hnd
    rcases List.mem_cons.mp h with h | h
    · cases h
      simp [alookup]
    · have hne : k ≠ k' := fun heq => hnd.1 (heq ▸ List.mem_map_of_mem Prod.fst h)
      simp only [alookup, if_neg hne]
      exact ih hnd.2 h

-- ## Splitting a string at its last underscore is unambiguous

theorem append_cons_inj_of_not_mem {c : Char} :
    ∀ (xs xs' ys ys' : List Char), c ∉ xs → c ∉ xs' →
      xs ++ c :: ys = xs' ++ c :: ys' → xs = xs' ∧ ys = ys' := by
  intro xs
  induction xs with
  | nil =>
    intro xs' ys ys' _ hx' heq
    cases xs' with
    | nil => simpa using heq
    | cons a t =>
      simp only [List.nil_append, List.cons_append, List.cons.injEq] at heq
      exact absurd (heq.1 ▸ List.mem_cons_self a t) (by simpa [heq.1] using hx')
  | cons a t ih =>
    intro xs' ys ys' hx hx' heq
    cases xs' with
    | nil =>
      simp only [List.cons_append, List.nil_append, List.cons.injEq] at heq
      exact absurd (List.mem_cons_self a t) (by simpa [heq.1] using hx)
    | cons a' t' =>
      simp only [List.cons_append, List.cons.injEq] at heq
      obtain ⟨rfl, heq⟩ := heq
      have hx2 : c ∉ t := fun hm => hx (List.mem_cons_of_mem _ hm)
      have hx2' : c ∉ t' := fun hm => hx' (List.mem_cons_of_mem _ hm)
      obtain ⟨h1, h2⟩ := ih t' ys ys' hx2 hx2' heq
      exact ⟨by rw [h1], h2⟩

theorem last_underscore_split {n1 n2 d1 d2 : List Char}
    (h1 : '_' ∉ d1) (h2 : '_' ∉ d2)
    (heq : n1 ++ '_' :: d1 = n2 ++ '_' :: d2) : n1 = n2 ∧ d1 = d2 := by
  have hrev : d1.reverse ++ '_' :: n1.reverse = d2.reverse ++ '_' :: n2.reverse := by
    have := congrArg List.reverse heq
    simpa [List.reverse_append] using this
  obtain ⟨hd, hn⟩ := append_cons_inj_of_not_mem d1.reverse d2.reverse n1.reverse n2.reverse
    (by simpa using h1) (by simpa using h2) hrev
  constructor
  · have := congrArg List.reverse hn; simpa using this
  · have := congrArg List.reverse hd; simpa using this

-- ## The grouping key (`update_processes_list`, lines 337-342)

/-- The group key used by `update_processes_list`: the lower-cased name itself
for names ending in `.exe`, otherwise the lower-cased name joined with the pid
(Python `f-string` `name_pid`). -/
def groupKey (name_lower : String) (pid : Nat) : String :=
  if pyEndsWith name_lower ".exe" then name_lower
  else name_lower ++ "_" ++ Nat.repr pid

theorem string_data_append (s t : String) : (s ++ t).data = s.data ++ t.data := rfl

theorem string_data_inj {s t : String} (h : s.data = t.data) : s = t := by
  cases s; cases t; cases h; rfl

theorem groupKey_nonexe_data {n : String} {p : Nat}
    (h : pyEndsWith n ".exe" = false) :
    (groupKey n p).data = n.data ++ '_' :: (Nat.repr p).data := by
  simp only [groupKey, h, Bool.false_eq_true, if_false]
  rw [string_data_append, string_data_append]
  simp

theorem groupKey_nonexe_inj {n1 n2 : String} {p1 p2 : Nat}
    (h1 : pyEndsWith n1 ".exe" = false) (h2 : pyEndsWith n2 ".exe" = false)
    (heq : groupKey n1 p1 = groupKey n2 p2) : n1 = n2 ∧ p1 = p2 := by
  have hdata : n1.data ++ '_' :: (Nat.repr p1).data
      = n2.data ++ '_' :: (Nat.repr p2).data := by
    rw [← groupKey_nonexe_data h1, ← groupKey_nonexe_data h2, heq]
  obtain ⟨hn, hd⟩ := last_underscore_split (underscore_not_mem_repr p1)
    (underscore_not_mem_repr p2) hdata
  exact ⟨string_data_inj hn, repr_injective (string_data_inj hd)⟩

theorem groupKey_nonexe_not_exe {n : String} {p : Nat}
    (h : pyEndsWith n ".exe" = false) :
    pyEndsWith (groupKey n p) ".exe" = false := by
  by_contra hcon
  have hsuf : pyEndsWith (groupKey n p) ".exe" = true := by
    cases hx : pyEndsWith (groupKey n p) ".exe" with
    | false => exact absurd hx hcon
    | true => rfl
  have hsuffix : (String.data ".exe") <:+ (groupKey n p).data := by
    simpa [pyEndsWith] using hsuf
  obtain ⟨t, ht⟩ := hsuffix
  have hlast : (groupKey n p).data.getLast? = some 'e' := by
    rw [← ht, List.getLast?_append]
    rfl
  obtain ⟨m, hm, hlastd⟩ := repr_getLast_digit p
  have hlast2 : (groupKey n p).data.getLast? = some (Nat.digitChar m) := by
    rw [groupKey_nonexe_data h]
    have hcons : n.data ++ '_' :: (Nat.repr p).data
        = (n.data ++ ['_']) ++ (Nat.repr p).data := by simp
    rw [hcons, List.getLast?_append, hlastd]
    rfl
  rw [hlast] at hlast2
  have hd : ∀ k, k < 10 → Nat.digitChar k ≠ 'e' := by decide
  exact hd m hm (by injection hlast2.symm)

-- ## Data model of the aggregation engine (`update_processes_list`, lines 325-391)

structure RawProc where
  pid : Nat
  name : Option String
  rss : Option ℚ
  cpu : ℚ
  io_total : Option ℚ
deriving DecidableEq

structure PerPidDetail where
  cpu : ℚ
  memory : ℚ
  power : ℚ
  network : ℚ
deriving DecidableEq

def zeroDetail : PerPidDetail := ⟨0, 0, 0, 0⟩

structure PGroup where
  key : String
  display_name : String
  pids : List Nat
  cpu : ℚ
  memory : ℚ
  power : ℚ
  network : ℚ
  per_pid : List (Nat × PerPidDetail)
deriving DecidableEq

/-- Model of `self.CPU_TDP_WATTS` (line 36). -/
def CPU_TDP_WATTS : ℚ := 15

/-- Model of `_estimate_power_mw` (lines 298-302). -/
def estimate_power_mw (cpu_pct : ℚ) : ℚ := cpu_pct / 100 * CPU_TDP_WATTS * 1000

/-- Model of `_get_network_kbps_for_pid` (lines 304-318): returns the computed kbps and
the updated `last_net_io` map. An unreadable io counter (the exception path)
yields `0` and leaves the map unchanged; a pid with no baseline yields `0` but
records the baseline; otherwise the rate is the byte delta over the elapsed
time floored at `0.001` seconds, divided by 1024, clamped at `0`. -/
def get_network_kbps_for_pid (last_net_io : List (Nat × (ℚ × ℚ))) (pid : Nat)
    (io_total : Option ℚ) (now : ℚ) : ℚ × List (Nat × (ℚ × ℚ)) :=
  match io_total with
  | none => (0, last_net_io)
  | some total_bytes =>
    match alookup pid last_net_io with
    | some (last_bytes, last_time) =>
      let dt := max (now - last_time) (1 / 1000)
      let kbps := (total_bytes - last_bytes) / dt / 1024
      (max kbps 0, aset pid (total_bytes, now) last_net_io)
    | none => (max 0 0, aset pid (total_bytes, now) last_net_io)

structure AggState where
  procs : List (String × PGroup)
  last_net_io : List (Nat × (ℚ × ℚ))

/-- The raw name of a sample: `(info.get('name') or "unknown").strip()` (line 334). -/
def rawNameOf (r : RawProc) : String := pyStrip (r.name.getD "unknown")

/-- The group key assigned to a sample (lines 335-342). -/
def procKey (r : RawProc) : String := groupKey (pyLower (rawNameOf r)) r.pid

/-- The fresh aggregate created at lines 353-363. -/
def emptyGroup (key display_name : String) : PGroup :=
  ⟨key, display_name, [], 0, 0, 0, 0, []⟩

/-- The in-place aggregate update of lines 365-376. -/
def addToGroup (g : PGroup) (pid : Nat) (d : PerPidDetail) : PGroup :=
  { g with
    pids := g.pids ++ [pid]
    cpu := g.cpu + d.cpu
    memory := g.memory + d.memory
    power := g.power + d.power
    network := g.network + d.network
    per_pid := aset pid d g.per_pid }

/-- The per-pid metrics retained for a sample (lines 344-351 and 371-376). -/
def procDetail (r : RawProc) (net_kbps : ℚ) : PerPidDetail :=
  ⟨r.cpu, (r.rss.getD 0) / (1024 * 1024), estimate_power_mw r.cpu, net_kbps⟩

/-- One iteration of the `for proc in psutil.process_iter(...)` loop
(lines 330-381). Samples whose process vanished mid-read are dropped before
they reach this step (the `continue` branches), so they simply do not appear
in the input list. -/
def procStep (now : ℚ) (st : AggState) (r : RawProc) : AggState :=
  let nr := get_network_kbps_for_pid st.last_net_io r.pid r.io_total now
  let key := procKey r
  let g := (alookup key st.procs).getD (emptyGroup key (rawNameOf r))
  ⟨aset key (addToGroup g r.pid (procDetail r nr.1)) st.procs, nr.2⟩

/-- Model of `update_processes_list` (lines 325-391): fold the samples into keyed
aggregates, then sort by cpu sum descending (line 384). `insertionSort` is a
stable sort like Python's; the spec notes the tie order is not load-bearing. -/
def update_processes_list (samples : List RawProc) (now : ℚ)
    (last_net_io : List (Nat × (ℚ × ℚ))) :
    List PGroup × List (Nat × (ℚ × ℚ)) :=
  let final := samples.foldl (procStep now) ⟨[], last_net_io⟩
  (List.insertionSort (fun a b : PGroup => b.cpu ≤ a.cpu)
    (final.procs.map Prod.snd), final.last_net_io)

-- ## Threshold monitor (`display_processes`, lines 394-471)

/-- Parsing the memory-limit entry (lines 397-402): a parse failure falls back
to `0`, a negative value is clamped to `0`. -/
def parse_memory_limit (entry : Option ℚ) : ℚ :=
  match entry with
  | none => 0
  | some l => if l < 0 then 0 else l

/-- The high-memory test of line 416: `memory_limit > 0 and mem_sum > memory_limit`. -/
def highFlag (memory_limit : ℚ) (g : PGroup) : Bool :=
  decide (0 < memory_limit) && decide (memory_limit < g.memory)

structure DisplayState where
  current_high_names : List String
  alerted_names : List String
  notified : List String
deriving DecidableEq

/-- The body of the display loop for one group (lines 406-443), restricted to
its threshold-monitor effect: record the name as currently high, and emit a
toast exactly when the name is not already in the alert-dedup set. -/
def displayStep (memory_limit : ℚ) (st : DisplayState) (g : PGroup) : DisplayState :=
  if highFlag memory_limit g then
    let ch := if g.display_name ∈ st.current_high_names then st.current_high_names
              else st.current_high_names ++ [g.display_name]
    if g.display_name ∈ st.alerted_names then ⟨ch, st.alerted_names, st.notified⟩
    else ⟨ch, st.alerted_names ++ [g.display_name], st.notified ++ [g.display_name]⟩
  else st

/-- Model of `display_processes` (lines 394-471): the names flagged high this cycle, the
alert-dedup set after the cleanup of lines 464-471, and the toasts emitted. -/
def display_processes (groups : List PGroup) (entry : Option ℚ)
    (alerted0 : List String) : DisplayState :=
  let limit := parse_memory_limit entry
  let st := groups.foldl (displayStep limit) ⟨[], alerted0, []⟩
  ⟨st.current_high_names,
   st.alerted_names.filter (fun n => decide (n ∈ st.current_high_names)),
   st.notified⟩

-- ## The durable suspend/resume flow

/-- The persisted suspension record (`save_suspend_state`, lines 135-148). -/
structure SuspendRecord where
  pids : List Nat
  resume_time : ℚ
  saved_at : ℚ
deriving DecidableEq

/-- Model of `save_suspend_state` (lines 135-148): the record written to disk. -/
def save_suspend_state (pid_list : List Nat) (resume_time saved_at : ℚ) :
    SuspendRecord := ⟨pid_list, resume_time, saved_at⟩

/-- Observable events of the STOP flow (`_suspend_resume_processes`). -/
inductive SEvent
  | persistAttempt (record : SuspendRecord) (ok : Bool)
  | suspendAttempt (pid : Nat) (ok : Bool)
  | infoStopped (count : Nat)
  | sleepUntil (resume_time : ℚ)
  | resumeAttempt (pid : Nat) (ok : Bool)
  | clearRecord
  | infoResumed (count : Nat)
deriving DecidableEq

/-- Model of `_suspend_resume_processes` (lines 226-273) as an event trace, in source
order: persist the record, attempt each suspend, show the stopped info, sleep
if time remains, attempt each resume on the suspended subset, clear the
record, and show the resumed info when any resume succeeded. `now` is the time
at entry, `now2` the time when the remaining sleep is computed (line 253);
`persist_ok`, `suspend_ok` and `resume_ok` are the success oracles of the file
write and of the per-pid psutil calls. -/
def suspend_resume_processes (pid_list : List Nat) (seconds : ℚ) (now now2 : ℚ)
    (persist_ok : Bool) (suspend_ok resume_ok : Nat → Bool) : List SEvent :=
  let resume_time := now + seconds
  let suspended_pids := pid_list.filter suspend_ok
  let resumed := (suspended_pids.filter resume_ok).length
  [SEvent.persistAttempt (save_suspend_state pid_list resume_time now) persist_ok]
  ++ pid_list.map (fun p => SEvent.suspendAttempt p (suspend_ok p))
  ++ [SEvent.infoStopped suspended_pids.length]
  ++ (if 0 < resume_time - now2 then [SEvent.sleepUntil resume_time] else [])
  ++ suspended_pids.map (fun p => SEvent.resumeAttempt p (resume_ok p))
  ++ [SEvent.clearRecord]
  ++ (if 0 < resumed then [SEvent.infoResumed resumed] else [])

/-- The duration table of `stop_selected_task` (lines 202-218); `custom_minutes`
is `none` when `float(self.custom_minutes.get())` raises. -/
def durationSeconds (choice : String) (custom_minutes : Option ℚ) : Option ℚ :=
  if choice = "2 Hours" then some (2 * 3600)
  else if choice = "7 Days" then some (7 * 24 * 3600)
  else if choice = "1 Month" then some (30 * 24 * 3600)
  else if choice = "1 Year" then some (365 * 24 * 3600)
  else if choice = "Custom (Minutes)" then custom_minutes.map (fun m => m * 60)
  else some 3600

/-- Model of `stop_selected_task` (lines 174-224): reject an empty pid selection or an
unparsable Custom minutes value before doing anything; otherwise run the
suspend/resume flow (the confirm dialog is modelled as accepted). -/
def stop_selected_task (pid_list : List Nat) (choice : String)
    (custom_minutes : Option ℚ) (now now2 : ℚ) (persist_ok : Bool)
    (suspend_ok resume_ok : Nat → Bool) : Except String (List SEvent) :=
  if pid_list = [] then Except.error "Could not determine PIDs to stop."
  else
    match durationSeconds choice custom_minutes with
    | none => Except.error "Invalid custom minutes."
    | some seconds =>
      Except.ok (suspend_resume_processes pid_list seconds now now2 persist_ok
        suspend_ok resume_ok)

/-- The messagebox events a user sees during the STOP flow. -/
def isUserVisible : SEvent → Bool
  | SEvent.infoStopped _ => true
  | SEvent.infoResumed _ => true
  | _ => false

/-- Model of `resume_pids` (lines 275-284): best-effort resume, returns the success count. -/
def resume_pids (resume_ok : Nat → Bool) (pid_list : List Nat) : Nat :=
  (pid_list.filter resume_ok).length

/-- Observable outcome of `check_persisted_suspend_state` (lines 642-684). -/
structure RecoveryOutcome where
  resume_attempts : List Nat
  resumed_count : Nat
  record_cleared : Bool
  prompt_shown : Bool
deriving DecidableEq

/-- Model of `check_persisted_suspend_state` (lines 642-684): `state` is the result of
`load_suspend_state` (`none` when the file is absent or invalid). The remaining
wait is `int(resume_time - now)`; when it is `<= 0` every recorded pid gets a
best-effort resume and the record is cleared, otherwise the operator is
prompted. -/
def check_persisted_suspend_state (state : Option SuspendRecord) (now : ℚ)
    (resume_ok : Nat → Bool) : RecoveryOutcome :=
  match state with
  | none => ⟨[], 0, false, false⟩
  | some st =>
    let remaining : ℤ := pyInt (st.resume_time - now)
    if remaining ≤ 0 then ⟨st.pids, resume_pids resume_ok st.pids, true, false⟩
    else ⟨[], 0, false, true⟩

-- ## Shape of the STOP-flow trace

theorem suspend_resume_processes_cons (pid_list : List Nat) (seconds now now2 : ℚ)
    (persist_ok : Bool) (suspend_ok resume_ok : Nat → Bool) :
    suspend_resume_processes pid_list seconds now now2 persist_ok suspend_ok resume_ok
      = SEvent.persistAttempt (save_suspend_state pid_list (now + seconds) now) persist_ok
        :: (pid_list.map (fun p => SEvent.suspendAttempt p (suspend_ok p))
          ++ [SEvent.infoStopped (pid_list.filter suspend_ok).length]
          ++ (if 0 < now + seconds - now2 then [SEvent.sleepUntil (now + seconds)] else [])
          ++ (pid_list.filter suspend_ok).map (fun p => SEvent.resumeAttempt p (resume_ok p))
          ++ [SEvent.clearRecord]
          ++ (if 0 < ((pid_list.filter suspend_ok).filter resume_ok).length
              then [SEvent.infoResumed ((pid_list.filter suspend_ok).filter resume_ok).length]
              else [])) := rfl

/-- Claim C1: in the STOP flow the suspension record (pids, resume_time,
saved_at) is handed to persistent storage before any OS-level suspend call is
attempted: for every input pid list and duration, wherever a suspend attempt
occurs in the trace, the persist attempt precedes it. -/
theorem C1_persist_before_suspend (pid_list : List Nat) (seconds now now2 : ℚ)
    (persist_ok : Bool) (suspend_ok resume_ok : Nat → Bool)
    (l1 l2 : List SEvent) (p : Nat) (ok : Bool)
    (h : suspend_resume_processes pid_list seconds now now2 persist_ok suspend_ok resume_ok
      = l1 ++ SEvent.suspendAttempt p ok :: l2) :
    SEvent.persistAttempt (save_suspend_state pid_list (now + seconds) now) persist_ok ∈ l1 := by
  rw [suspend_resume_processes_cons] at h
  cases l1 with
  | nil => simp at h
  | cons e t =>
    have hh : SEvent.persistAttempt (save_suspend_state pid_list (now + seconds) now)
        persist_ok = e := by
      have := congrArg List.head? h
      simpa using this
    rw [← hh]
    exact List.mem_cons_self _ _

/-- Witness for C1: a concrete one-pid STOP trace decomposed at its suspend
attempt, with the persist attempt among the earlier events. -/
theorem C1_persist_before_suspend_witness :
    suspend_resume_processes [3] 10 0 0 true (fun _ => true) (fun _ => true)
      = [SEvent.persistAttempt (save_suspend_state [3] (0 + 10) 0) true]
        ++ SEvent.suspendAttempt 3 true
        :: [SEvent.infoStopped 1, SEvent.sleepUntil (0 + 10), SEvent.resumeAttempt 3 true,
            SEvent.clearRecord, SEvent.infoResumed 1]
    ∧ SEvent.persistAttempt (save_suspend_state [3] (0 + 10) 0) true
        ∈ [SEvent.persistAttempt (save_suspend_state [3] (0 + 10) 0) true] := by
  have hdecomp : suspend_resume_processes [3] 10 0 0 true (fun _ => true) (fun _ => true)
      = [SEvent.persistAttempt (save_suspend_state [3] (0 + 10) 0) true]
        ++ SEvent.suspendAttempt 3 true
        :: [SEvent.infoStopped 1, SEvent.sleepUntil (0 + 10), SEvent.resumeAttempt 3 true,
            SEvent.clearRecord, SEvent.infoResumed 1] := by
    norm_num [suspend_resume_processes_cons]
  exact ⟨hdecomp,
    C1_persist_before_suspend [3] 10 0 0 true (fun _ => true) (fun _ => true) _ _ 3 true hdecomp⟩

theorem durationSeconds_custom (cm : Option ℚ) :
    durationSeconds "Custom (Minutes)" cm = cm.map (fun m => m * 60) := rfl

/-- Claim C3 counterexample: a Custom duration of 0 minutes (so
duration_seconds = 0, not strictly positive) is not rejected: the flow
proceeds, persists the record and attempts the suspend; no InvalidDuration
error exists in the code. -/
theorem C3_counterexample :
    stop_selected_task [1] "Custom (Minutes)" (some 0) 0 0 true
        (fun _ => true) (fun _ => true)
      = Except.ok [SEvent.persistAttempt ⟨[1], 0, 0⟩ true, SEvent.suspendAttempt 1 true,
          SEvent.infoStopped 1, SEvent.resumeAttempt 1 true, SEvent.clearRecord,
          SEvent.infoResumed 1] := by
  norm_num [stop_selected_task, durationSeconds_custom, suspend_resume_processes,
    save_suspend_state]

/-- Claim C3 amended: the stop flow performs no positivity check on the
duration. Only an unparsable Custom minutes value is rejected before any state
mutation; a Custom duration of m <= 0 minutes is accepted: the record is
persisted, every requested suspend is attempted, no sleep happens (the wait is
skipped), and resumes follow immediately. -/
theorem C3_amended_no_duration_validation (pid_list : List Nat) (m : ℚ)
    (now now2 : ℚ) (persist_ok : Bool) (suspend_ok resume_ok : Nat → Bool)
    (hne : pid_list ≠ []) (hm : m ≤ 0) (hnow : now ≤ now2) :
    stop_selected_task pid_list "Custom (Minutes)" none now now2 persist_ok
        suspend_ok resume_ok = Except.error "Invalid custom minutes."
    ∧ stop_selected_task pid_list "Custom (Minutes)" (some m) now now2 persist_ok
        suspend_ok resume_ok
      = Except.ok (suspend_resume_processes pid_list (m * 60) now now2 persist_ok
          suspend_ok resume_ok)
    ∧ (∀ rt, SEvent.sleepUntil rt
        ∉ suspend_resume_processes pid_list (m * 60) now now2 persist_ok suspend_ok resume_ok)
    ∧ SEvent.persistAttempt (save_suspend_state pid_list (now + m * 60) now) persist_ok
        ∈ suspend_resume_processes pid_list (m * 60) now now2 persist_ok suspend_ok resume_ok
    ∧ ∀ p ∈ pid_list, SEvent.suspendAttempt p (suspend_ok p)
        ∈ suspend_resume_processes pid_list (m * 60) now now2 persist_ok suspend_ok resume_ok := by
  have hsec : m * 60 ≤ 0 := by nlinarith
  have hnosleep : ¬ (0 < now + m * 60 - now2) := by linarith
  refine ⟨?_, ?_, ?_, ?_, ?_⟩
  · simp [stop_selected_task, durationSeconds_custom, hne]
  · simp [stop_selected_task, durationSeconds_custom, hne]
  · intro rt hmem
    rw [suspend_resume_processes_cons, if_neg hnosleep] at hmem
    split at hmem <;> simp at hmem
  · rw [suspend_resume_processes_cons]
    exact List.mem_cons_self _ _
  · intro p hp
    rw [suspend_resume_processes_cons]
    refine List.mem_cons_of_mem _ ?_
    refine List.mem_append_left _ ?_
    refine List.mem_append_left _ ?_
    refine List.mem_append_left _ ?_
    refine List.mem_append_left _ ?_
    exact List.mem_append_left _ (List.mem_map_of_mem _ hp)

/-- Witness for C3 amended at a concrete input (one pid, Custom 0 minutes). -/
theorem C3_amended_witness :
    ([1] : List Nat) ≠ [] ∧ (0 : ℚ) ≤ 0 ∧
    stop_selected_task [1] "Custom (Minutes)" (some 0) 0 0 true
        (fun _ => true) (fun _ => true)
      = Except.ok (suspend_resume_processes [1] (0 * 60) 0 0 true
          (fun _ => true) (fun _ => true)) :=
  ⟨by simp, le_refl 0,
    (C3_amended_no_duration_validation [1] 0 0 0 true (fun _ => true) (fun _ => true)
      (by simp) (le_refl 0) (le_refl 0)).2.1⟩

/-- Claim C9 counterexample: when the persist attempt fails, the user-visible
output of the STOP flow is identical to the success case (the ordinary stopped
and resumed info boxes); nothing reports the lost durability, and the suspends
still proceed. -/
theorem C9_counterexample :
    (suspend_resume_processes [7] 60 0 0 false (fun _ => true) (fun _ => true)).filter
        isUserVisible
      = (suspend_resume_processes [7] 60 0 0 true (fun _ => true) (fun _ => true)).filter
        isUserVisible
    ∧ SEvent.suspendAttempt 7 true
        ∈ suspend_resume_processes [7] 60 0 0 false (fun _ => true) (fun _ => true)
    ∧ (suspend_resume_processes [7] 60 0 0 false (fun _ => true) (fun _ => true)).filter
        isUserVisible
      = [SEvent.infoStopped 1, SEvent.infoResumed 1] := by
  refine ⟨?_, ?_, ?_⟩ <;>
    norm_num [suspend_resume_processes, isUserVisible, save_suspend_state]

/-- Claim C9 amended: a storage write failure during the STOP flow still lets
the in-memory effect proceed (every suspend is attempted), but the failure is
silently swallowed: the user-visible events are identical to the success case,
so durability loss is never surfaced. -/
theorem C9_amended_silent_persist_failure (pid_list : List Nat)
    (seconds now now2 : ℚ) (suspend_ok resume_ok : Nat → Bool) :
    (suspend_resume_processes pid_list seconds now now2 false suspend_ok resume_ok).filter
        isUserVisible
      = (suspend_resume_processes pid_list seconds now now2 true suspend_ok resume_ok).filter
        isUserVisible
    ∧ ∀ p ∈ pid_list, SEvent.suspendAttempt p (suspend_ok p)
        ∈ suspend_resume_processes pid_list seconds now now2 false suspend_ok resume_ok := by
  constructor
  · rw [suspend_resume_processes_cons, suspend_resume_processes_cons]
    simp [List.filter_cons, isUserVisible]
  · intro p hp
    rw [suspend_resume_processes_cons]
    refine List.mem_cons_of_mem _ ?_
    refine List.mem_append_left _ ?_
    refine List.mem_append_left _ ?_
    refine List.mem_append_left _ ?_
    refine List.mem_append_left _ ?_
    exact List.mem_append_left _ (List.mem_map_of_mem _ hp)

/-- Witness for C9 amended at a concrete input. -/
theorem C9_amended_witness :
    (7 ∈ ([7] : List Nat)) ∧ SEvent.suspendAttempt 7 true
      ∈ suspend_resume_processes [7] 60 0 0 false (fun _ => true) (fun _ => true) :=
  ⟨by simp, (C9_amended_silent_persist_failure [7] 60 0 0 (fun _ => true)
    (fun _ => true)).2 7 (by simp)⟩

-- ## Startup recovery claims

/-- Claim C2 counterexample: a valid persisted record whose resume_time is half
a second in the future (so resume_at > now) is not prompted for: because the
remaining wait is truncated with int(), its pids are resumed immediately and
the record is cleared. -/
theorem C2_counterexample :
    (0 : ℚ) < 1 / 2 ∧
    check_persisted_suspend_state (some ⟨[100, 200], 1 / 2, 0⟩) 0 (fun _ => true)
      = ⟨[100, 200], 2, true, false⟩ := by
  constructor
  · norm_num
  · norm_num [check_persisted_suspend_state, pyInt, resume_pids]

/-- Claim C2 amended: with a valid persisted record, recovery resumes every
recorded pid best-effort, clears the record and shows no prompt whenever
resume_at <= now; and it prompts instead of resuming whenever
resume_at >= now + 1. (Records due in the open interval (now, now + 1) are
treated as overdue because int() truncates the remaining wait; see C10.) -/
theorem C2_amended_recovery (st : SuspendRecord) (now : ℚ) (resume_ok : Nat → Bool) :
    (st.resume_time ≤ now →
      check_persisted_suspend_state (some st) now resume_ok
        = ⟨st.pids, resume_pids resume_ok st.pids, true, false⟩) ∧
    (now + 1 ≤ st.resume_time →
      check_persisted_suspend_state (some st) now resume_ok = ⟨[], 0, false, true⟩) := by
  constructor
  · intro h
    have hq : st.resume_time - now ≤ 0 := by linarith
    have hle : pyInt (st.resume_time - now) ≤ 0 := by
      unfold pyInt
      by_cases hneg : st.resume_time - now < 0
      · rw [if_pos hneg]
        have h0 : 0 ≤ ⌊-(st.resume_time - now)⌋ := Int.floor_nonneg.mpr (by linarith)
        omega
      · rw [if_neg hneg]
        have hz : st.resume_time - now = 0 := le_antisymm hq (not_lt.mp hneg)
        rw [hz]
        simp
    simp [check_persisted_suspend_state, if_pos hle]
  · intro h
    have h1 : ((1 : ℤ) : ℚ) ≤ st.resume_time - now := by push_cast; linarith
    have hpos : 0 < pyInt (st.resume_time - now) := by
      unfold pyInt
      rw [if_neg (by push_neg; linarith : ¬ st.resume_time - now < 0)]
      have := Int.le_floor.mpr h1
      omega
    simp [check_persisted_suspend_state, if_neg (not_le.mpr hpos)]

/-- Witness for C2 amended: an overdue record resumes without prompt, a record
one-plus seconds out prompts. -/
theorem C2_amended_recovery_witness :
    ((5 : ℚ) ≤ 10 ∧
      check_persisted_suspend_state (some ⟨[3], 5, 0⟩) 10 (fun _ => true)
        = ⟨[3], resume_pids (fun _ => true) [3], true, false⟩) ∧
    ((0 : ℚ) + 1 ≤ 5 ∧
      check_persisted_suspend_state (some ⟨[3], 5, 0⟩) 0 (fun _ => true)
        = ⟨[], 0, false, true⟩) :=
  ⟨⟨by norm_num,
    (C2_amended_recovery ⟨[3], 5, 0⟩ 10 (fun _ => true)).1 (by norm_num)⟩,
   ⟨by norm_num,
    (C2_amended_recovery ⟨[3], 5, 0⟩ 0 (fun _ => true)).2 (by norm_num)⟩⟩

/-- Claim C10: startup recovery computes the remaining wait as the integer
truncation of resume_time - now, so a record due strictly less than one second
in the future (0 < resume_time - now < 1) is treated as overdue: its pids are
resumed immediately, the record is cleared, and no prompt is shown. -/
theorem C10_subsecond_future_resumes_immediately (st : SuspendRecord) (now : ℚ)
    (resume_ok : Nat → Bool) (h0 : 0 < st.resume_time - now)
    (h1 : st.resume_time - now < 1) :
    check_persisted_suspend_state (some st) now resume_ok
      = ⟨st.pids, resume_pids resume_ok st.pids, true, false⟩ := by
  have hfloor : pyInt (st.resume_time - now) = 0 := by
    unfold pyInt
    rw [if_neg (not_lt.mpr h0.le)]
    exact Int.floor_eq_zero_iff.mpr (Set.mem_Ico.mpr ⟨h0.le, h1⟩)
  simp [check_persisted_suspend_state, hfloor]

/-- Witness for C10: a record half a second in the future. -/
theorem C10_subsecond_witness :
    ((0 : ℚ) < 1 / 2 - 0) ∧ ((1 : ℚ) / 2 - 0 < 1) ∧
    check_persisted_suspend_state (some ⟨[5], 1 / 2, 0⟩) 0 (fun _ => true)
      = ⟨[5], resume_pids (fun _ => true) [5], true, false⟩ :=
  ⟨by norm_num, by norm_num,
    C10_subsecond_future_resumes_immediately ⟨[5], 1 / 2, 0⟩ 0 (fun _ => true)
      (by norm_num) (by norm_num)⟩

-- ## Threshold-flag claim

/-- Claim C4: a group is flagged high exactly when the configured limit is
strictly positive and the group's memory sum strictly exceeds it; a limit of 0
or any negative limit never flags a group, regardless of its memory sum. -/
theorem C4_high_memory_flag (l : ℚ) (g : PGroup) :
    (highFlag (parse_memory_limit (some l)) g = true ↔ (0 < l ∧ l < g.memory)) ∧
    (l ≤ 0 → highFlag (parse_memory_limit (some l)) g = false) := by
  have hparse : parse_memory_limit (some l) = if l < 0 then 0 else l := rfl
  constructor
  · rw [hparse]
    by_cases hl : l < 0
    · rw [if_pos hl]
      simp only [highFlag, Bool.and_eq_true, decide_eq_true_eq]
      constructor
      · rintro ⟨h0, -⟩; exact absurd h0 (lt_irrefl 0)
      · rintro ⟨h0, -⟩; exact absurd hl (not_lt.mpr h0.le)
    · rw [if_neg hl]
      simp [highFlag]
  · intro hle
    rw [hparse]
    by_cases hl : l < 0
    · rw [if_pos hl]; simp [highFlag]
    · have hz : l = 0 := le_antisymm hle (not_lt.mp hl)
      rw [if_neg hl, hz]
      simp [highFlag]

/-- Witness for C4: a negative limit never flags, a positive limit flags a
group above it. -/
theorem C4_high_memory_flag_witness :
    ((-5 : ℚ) ≤ 0 ∧
      highFlag (parse_memory_limit (some (-5))) ⟨"k", "k", [1], 0, 999, 0, 0, []⟩ = false) ∧
    (highFlag (parse_memory_limit (some 100)) ⟨"k", "k", [1], 0, 150, 0, 0, []⟩ = true
      ↔ ((0 : ℚ) < 100 ∧ (100 : ℚ) < 150)) :=
  ⟨⟨by norm_num,
    (C4_high_memory_flag (-5) ⟨"k", "k", [1], 0, 999, 0, 0, []⟩).2 (by norm_num)⟩,
   by
    have := (C4_high_memory_flag 100 ⟨"k", "k", [1], 0, 150, 0, 0, []⟩).1
    simpa using this⟩

-- ## Network-throughput claim

/-- Claim C8: per-pid network throughput equals
max(0, (current - previous) / elapsed / 1024) with the elapsed time floored at
the 0.001-second epsilon; the first-ever sample of a pid yields exactly 0; and
a second sample with a 100 KB (100000-byte) delta over one second yields
3125/32 = 97.65625, which is 97.66 KB/s to within 0.01. -/
theorem C8_network_throughput :
    (∀ (m : List (Nat × (ℚ × ℚ))) (pid : Nat) (total now last_bytes last_time : ℚ),
      alookup pid m = some (last_bytes, last_time) →
      (get_network_kbps_for_pid m pid (some total) now).1
        = max 0 ((total - last_bytes) / max (now - last_time) (1 / 1000) / 1024)) ∧
    (∀ (m : List (Nat × (ℚ × ℚ))) (pid : Nat) (total now : ℚ),
      alookup pid m = none →
      (get_network_kbps_for_pid m pid (some total) now).1 = 0) ∧
    (∀ b t : ℚ,
      (get_network_kbps_for_pid [(9, (b, t))] 9 (some (b + 100000)) (t + 1)).1
        = 3125 / 32) ∧
    |(3125 : ℚ) / 32 - 9766 / 100| < 1 / 100 := by
  refine ⟨?_, ?_, ?_, ?_⟩
  · intro m pid total now last_bytes last_time h
    simp only [get_network_kbps_for_pid, h]
    exact max_comm _ _
  · intro m pid total now h
    simp [get_network_kbps_for_pid, h]
  · intro b t
    have h : alookup 9 [(9, (b, t))] = some (b, t) := by simp [alookup]
    simp only [get_network_kbps_for_pid, h]
    have h1 : b + 100000 - b = 100000 := by ring
    have h2 : t + 1 - t = 1 := by ring
    rw [h1, h2]
    have h3 : max (1 : ℚ) (1 / 1000) = 1 := by norm_num
    rw [h3]
    norm_num
  · norm_num [abs]

/-- Witness for C8: concrete instances of the baseline and first-sample cases. -/
theorem C8_network_throughput_witness :
    (alookup 9 [(9, ((5 : ℚ), (2 : ℚ)))] = some (5, 2) ∧
      (get_network_kbps_for_pid [(9, ((5 : ℚ), (2 : ℚ)))] 9 (some 10) 3).1
        = max 0 ((10 - 5) / max ((3 : ℚ) - 2) (1 / 1000) / 1024)) ∧
    (alookup 7 ([] : List (Nat × (ℚ × ℚ))) = none ∧
      (get_network_kbps_for_pid [] 7 (some 10) 3).1 = 0) :=
  ⟨⟨by simp [alookup],
    C8_network_throughput.1 [(9, (5, 2))] 9 10 3 5 2 (by simp [alookup])⟩,
   ⟨rfl, C8_network_throughput.2.1 [] 7 10 3 rfl⟩⟩

-- ## Alert-deduplication invariant (claim C5)

def DisplayInv (limit : ℚ) (al0 : List String) (processed : List PGroup)
    (st : DisplayState) : Prop :=
  (∀ n ∈ st.notified, n ∉ al0 ∧ n ∈ st.current_high_names) ∧
  (∀ n ∈ st.current_high_names, n ∈ st.alerted_names) ∧
  (∀ n ∈ al0, n ∈ st.alerted_names) ∧
  (∀ n ∈ st.current_high_names,
    ∃ g ∈ processed, g.display_name = n ∧ highFlag limit g = true) ∧
  (∀ g ∈ processed, highFlag limit g = true → g.display_name ∈ st.current_high_names)

theorem displayStep_inv (limit : ℚ) (al0 : List String) (processed : List PGroup)
    (st : DisplayState) (g : PGroup) (hinv : DisplayInv limit al0 processed st) :
    DisplayInv limit al0 (processed ++ [g]) (displayStep limit st g) := by
  obtain ⟨h1, h2, h3, h4, h5⟩ := hinv
  unfold displayStep
  by_cases hg : highFlag limit g = true
  · rw [if_pos hg]
    have hch_sub : ∀ n ∈ st.current_high_names,
        n ∈ (if g.display_name ∈ st.current_high_names then st.current_high_names
             else st.current_high_names ++ [g.display_name]) := by
      intro n hn
      split
      · exact hn
      · exact List.mem_append_left _ hn
    have hname_ch : g.display_name
        ∈ (if g.display_name ∈ st.current_high_names then st.current_high_names
           else st.current_high_names ++ [g.display_name]) := by
      split
      · assumption
      · exact List.mem_append_right _ (List.mem_singleton.mpr rfl)
    have hch_src : ∀ n ∈ (if g.display_name ∈ st.current_high_names
          then st.current_high_names
          else st.current_high_names ++ [g.display_name]),
        n ∈ st.current_high_names ∨ n = g.display_name := by
      intro n hn
      split at hn
      · exact Or.inl hn
      · rcases List.mem_append.mp hn with hn | hn
        · exact Or.inl hn
        · exact Or.inr (List.mem_singleton.mp hn)
    by_cases hal : g.display_name ∈ st.alerted_names
    · rw [if_pos hal]
      refine ⟨?_, ?_, ?_, ?_, ?_⟩
      · intro n hn
        exact ⟨(h1 n hn).1, hch_sub n (h1 n hn).2⟩
      · intro n hn
        rcases hch_src n hn with hn | hn
        · exact h2 n hn
        · rw [hn]; exact hal
      · exact h3
      · intro n hn
        rcases hch_src n hn with hn | hn
        · obtain ⟨g', hg', hn', hhigh⟩ := h4 n hn
          exact ⟨g', List.mem_append_left _ hg', hn', hhigh⟩
        · exact ⟨g, List.mem_append_right _ (List.mem_singleton.mpr rfl), hn.symm, hg⟩
      · intro g' hg' hhigh
        rcases List.mem_append.mp hg' with hg' | hg'
        · exact hch_sub _ (h5 g' hg' hhigh)
        · rw [List.mem_singleton.mp hg']; exact hname_ch
    · rw [if_neg hal]
      refine ⟨?_, ?_, ?_, ?_, ?_⟩
      · intro n hn
        rcases List.mem_append.mp hn with hn | hn
        · exact ⟨(h1 n hn).1, hch_sub n (h1 n hn).2⟩
        · rw [List.mem_singleton.mp hn]
          exact ⟨fun hmem => hal (h3 _ hmem), hname_ch⟩
      · intro n hn
        rcases hch_src n hn with hn | hn
        · exact List.mem_append_left _ (h2 n hn)
        · rw [hn]; exact List.mem_append_right _ (List.mem_singleton.mpr rfl)
      · intro n hn
        exact List.mem_append_left _ (h3 n hn)
      · intro n hn
        rcases hch_src n hn with hn | hn
        · obtain ⟨g', hg', hn', hhigh⟩ := h4 n hn
          exact ⟨g', List.mem_append_left _ hg', hn', hhigh⟩
        · exact ⟨g, List.mem_append_right _ (List.mem_singleton.mpr rfl), hn.symm, hg⟩
      · intro g' hg' hhigh
        rcases List.mem_append.mp hg' with hg' | hg'
        · exact hch_sub _ (h5 g' hg' hhigh)
        · rw [List.mem_singleton.mp hg']; exact hname_ch
  · rw [if_neg hg]
    refine ⟨h1, h2, h3, ?_, ?_⟩
    · intro n hn
      obtain ⟨g', hg', hn', hhigh⟩ := h4 n hn
      exact ⟨g', List.mem_append_left _ hg', hn', hhigh⟩
    · intro g' hg' hhigh
      rcases List.mem_append.mp hg' with hg' | hg'
      · exact h5 g' hg' hhigh
      · rw [List.mem_singleton.mp hg'] at hhigh ⊢
        exact absurd hhigh hg

theorem displayFold_inv (limit : ℚ) (al0 : List String) :
    ∀ (groups processed : List PGroup) (st : DisplayState),
      DisplayInv limit al0 processed st →
      DisplayInv limit al0 (processed ++ groups) (groups.foldl (displayStep limit) st) := by
  intro groups
  induction groups with
  | nil => intro processed st h; simpa using h
  | cons g rest ih =>
    intro processed st h
    have hstep := displayStep_inv limit al0 processed st g h
    have hrest := ih (processed ++ [g]) _ hstep
    simpa [List.append_assoc] using hrest

theorem displayInv_init (limit : ℚ) (al0 : List String) :
    DisplayInv limit al0 [] ⟨[], al0, []⟩ := by
  refine ⟨?_, ?_, ?_, ?_, ?_⟩ <;> simp

theorem display_processes_eq (groups : List PGroup) (entry : Option ℚ)
    (al0 : List String) :
    display_processes groups entry al0
      = ⟨(groups.foldl (displayStep (parse_memory_limit entry)) ⟨[], al0, []⟩).current_high_names,
         (groups.foldl (displayStep (parse_memory_limit entry))
           ⟨[], al0, []⟩).alerted_names.filter
           (fun n => decide (n ∈ (groups.foldl (displayStep (parse_memory_limit entry))
             ⟨[], al0, []⟩).current_high_names)),
         (groups.foldl (displayStep (parse_memory_limit entry)) ⟨[], al0, []⟩).notified⟩ := rfl

/-- Claim C5: the alert-deduplication state is correct across cycles. A toast
is emitted only for a high group whose display name is not already in the
alert set; after each evaluation the alert set holds exactly the
currently-high display names; and a name notified in one cycle is never
re-notified in the next cycle run from the resulting alert set (in particular
while it stays above the limit with no intervening removal). -/
theorem C5_alert_dedup (groups1 groups2 : List PGroup) (entry : Option ℚ)
    (al0 : List String) :
    (∀ n ∈ (display_processes groups1 entry al0).notified,
      n ∉ al0 ∧ ∃ g ∈ groups1, g.display_name = n
        ∧ highFlag (parse_memory_limit entry) g = true) ∧
    (∀ n, n ∈ (display_processes groups1 entry al0).alerted_names
      ↔ ∃ g ∈ groups1, g.display_name = n
        ∧ highFlag (parse_memory_limit entry) g = true) ∧
    (∀ n ∈ (display_processes groups1 entry al0).notified,
      n ∉ (display_processes groups2 entry
        (display_processes groups1 entry al0).alerted_names).notified) := by
  have hinv1 := displayFold_inv (parse_memory_limit entry) al0 groups1 [] ⟨[], al0, []⟩
    (displayInv_init _ _)
  rw [List.nil_append] at hinv1
  obtain ⟨h1, h2, h3, h4, h5⟩ := hinv1
  rw [display_processes_eq]
  refine ⟨?_, ?_, ?_⟩
  · intro n hn
    exact ⟨(h1 n hn).1, h4 n (h1 n hn).2⟩
  · intro n
    constructor
    · intro hn
      rw [List.mem_filter] at hn
      exact h4 n (of_decide_eq_true hn.2)
    · intro hex
      obtain ⟨g, hg, rfl, hhigh⟩ := hex
      have hch := h5 g hg hhigh
      rw [List.mem_filter]
      exact ⟨h2 _ hch, decide_eq_true hch⟩
  · intro n hn
    have hal1 : n ∈ (display_processes groups1 entry al0).alerted_names := by
      rw [display_processes_eq]
      rw [List.mem_filter]
      exact ⟨h2 n (h1 n hn).2, decide_eq_true (h1 n hn).2⟩
    intro hn2
    have hinv2 := displayFold_inv (parse_memory_limit entry)
      (display_processes groups1 entry al0).alerted_names groups2 [] ⟨[],
      (display_processes groups1 entry al0).alerted_names, []⟩ (displayInv_init _ _)
    rw [List.nil_append] at hinv2
    obtain ⟨g1, -, -, -, -⟩ := hinv2
    rw [display_processes_eq] at hn2
    exact (g1 n hn2).1 hal1

def C5WitnessGroup : PGroup := ⟨"x", "x", [1], 0, 300, 0, 0, []⟩

/-- Witness for C5: one group 100 MB above a 200 MB limit is notified in the
first cycle, is exactly the alert set afterwards, and is not re-notified in a
second cycle where it stays high. -/
theorem C5_alert_dedup_witness :
    ("x" ∈ (display_processes [C5WitnessGroup] (some 200) []).notified) ∧
    ("x" ∉ ([] : List String) ∧ ∃ g ∈ [C5WitnessGroup], g.display_name = "x"
      ∧ highFlag (parse_memory_limit (some 200)) g = true) ∧
    ("x" ∉ (display_processes [C5WitnessGroup] (some 200)
      (display_processes [C5WitnessGroup] (some 200) []).alerted_names).notified) :=
  ⟨by decide,
   (C5_alert_dedup [C5WitnessGroup] [C5WitnessGroup] (some 200) []).1 "x" (by decide),
   (C5_alert_dedup [C5WitnessGroup] [C5WitnessGroup] (some 200) []).2.2 "x" (by decide)⟩

-- ## Aggregation invariant (claims C6 and C7)

/-- The per-pid drill-down lookup used by the display code (lines 452-457):
`p["per_pid"].get(pid, {})` with each metric defaulting to 0. -/
def perPidGet (g : PGroup) (p : Nat) : PerPidDetail :=
  (alookup p g.per_pid).getD zeroDetail

def GroupInvariant (processed : List RawProc) (g : PGroup) : Prop :=
  g.pids ≠ [] ∧ g.pids.Nodup ∧
  g.per_pid.map Prod.fst = g.pids ∧
  g.cpu = (g.per_pid.map (fun e => e.2.cpu)).sum ∧
  g.memory = (g.per_pid.map (fun e => e.2.memory)).sum ∧
  g.power = (g.per_pid.map (fun e => e.2.power)).sum ∧
  g.network = (g.per_pid.map (fun e => e.2.network)).sum ∧
  ∀ p ∈ g.pids, ∃ r ∈ processed, r.pid = p ∧ procKey r = g.key

def DictInv (processed : List RawProc) (procs : List (String × PGroup)) : Prop :=
  ∀ k g, (k, g) ∈ procs → g.key = k ∧ GroupInvariant processed g

theorem groupInvariant_append {processed : List RawProc} {r : RawProc} {g : PGroup}
    (h : GroupInvariant processed g) : GroupInvariant (processed ++ [r]) g := by
  obtain ⟨h1, h2, h3, h4, h5, h6, h7, h8⟩ := h
  refine ⟨h1, h2, h3, h4, h5, h6, h7, fun p hp => ?_⟩
  obtain ⟨r', hr', hpid, hkey⟩ := h8 p hp
  exact ⟨r', List.mem_append_left _ hr', hpid, hkey⟩

theorem groupInvariant_add {processed : List RawProc} {r : RawProc} {g : PGroup}
    (h : GroupInvariant processed g) (hfresh : r.pid ∉ g.pids)
    (hkey : procKey r = g.key) (d : PerPidDetail) :
    GroupInvariant (processed ++ [r]) (addToGroup g r.pid d) := by
  obtain ⟨h1, h2, h3, h4, h5, h6, h7, h8⟩ := h
  have hkeys_fresh : r.pid ∉ g.per_pid.map Prod.fst := by rw [h3]; exact hfresh
  have haset : aset r.pid d g.per_pid = g.per_pid ++ [(r.pid, d)] :=
    aset_of_not_mem d hkeys_fresh
  refine ⟨by simp [addToGroup], ?_, ?_, ?_, ?_, ?_, ?_, ?_⟩
  · simp only [addToGroup]
    rw [List.nodup_append]
    exact ⟨h2, List.nodup_singleton _, by simpa [List.disjoint_singleton] using hfresh⟩
  · simp [addToGroup, haset, h3]
  · simp [addToGroup, haset, h4]
  · simp [addToGroup, haset, h5]
  · simp [addToGroup, haset, h6]
  · simp [addToGroup, haset, h7]
  · intro p hp
    simp only [addToGroup] at hp
    rcases List.mem_append.mp hp with hp | hp
    · obtain ⟨r', hr', hpid, hk⟩ := h8 p hp
      exact ⟨r', List.mem_append_left _ hr', hpid, by simpa [addToGroup] using hk⟩
    · rw [List.mem_singleton.mp hp]
      exact ⟨r, List.mem_append_right _ (List.mem_singleton.mpr rfl), rfl,
        by simpa [addToGroup] using hkey⟩

theorem groupInvariant_new {processed : List RawProc} {r : RawProc} (name : String)
    (d : PerPidDetail) :
    GroupInvariant (processed ++ [r])
      (addToGroup (emptyGroup (procKey r) name) r.pid d) := by
  refine ⟨by simp [addToGroup, emptyGroup], by simp [addToGroup, emptyGroup], ?_, ?_,
    ?_, ?_, ?_, ?_⟩
  · simp [addToGroup, emptyGroup, aset]
  · simp [addToGroup, emptyGroup, aset]
  · simp [addToGroup, emptyGroup, aset]
  · simp [addToGroup, emptyGroup, aset]
  · simp [addToGroup, emptyGroup, aset]
  · intro p hp
    simp only [addToGroup, emptyGroup, List.nil_append, List.mem_singleton] at hp
    rw [hp]
    exact ⟨r, List.mem_append_right _ (List.mem_singleton.mpr rfl), rfl,
      by simp [addToGroup, emptyGroup]⟩

theorem procStep_procs (now : ℚ) (st : AggState) (r : RawProc) :
    (procStep now st r).procs
      = aset (procKey r)
          (addToGroup ((alookup (procKey r) st.procs).getD
            (emptyGroup (procKey r) (rawNameOf r))) r.pid
            (procDetail r (get_network_kbps_for_pid st.last_net_io r.pid r.io_total now).1))
          st.procs := rfl

theorem procStep_dictInv {processed : List RawProc} {r : RawProc} (now : ℚ)
    {st : AggState} (hinv : DictInv processed st.procs)
    (hfresh : r.pid ∉ processed.map RawProc.pid) :
    DictInv (processed ++ [r]) (procStep now st r).procs := by
  intro k0 g0 hmem
  rw [procStep_procs] at hmem
  rcases mem_aset hmem with ⟨hk0, hg0⟩ | hold
  · subst hk0; subst hg0
    cases hlook : alookup (procKey r) st.procs with
    | none =>
      simp only [Option.getD_none]
      exact ⟨by simp [addToGroup, emptyGroup], groupInvariant_new _ _⟩
    | some g =>
      simp only [Option.getD_some]
      have hging := hinv (procKey r) g (alookup_mem hlook)
      have hkeyg : g.key = procKey r := hging.1
      have hginv := hging.2
      have hfreshg : r.pid ∉ g.pids := by
        intro hpid
        obtain ⟨-, -, -, -, -, -, -, h8⟩ := hginv
        obtain ⟨r', hr', hpid', -⟩ := h8 r.pid hpid
        exact hfresh (hpid' ▸ List.mem_map_of_mem RawProc.pid hr')
      exact ⟨by simpa [addToGroup] using hkeyg,
        groupInvariant_add hginv hfreshg hkeyg.symm _⟩
  · have := hinv k0 g0 hold
    exact ⟨this.1, groupInvariant_append this.2⟩

theorem foldl_procStep_inv (now : ℚ) :
    ∀ (rs processed : List RawProc) (st : AggState),
      ((processed ++ rs).map RawProc.pid).Nodup →
      DictInv processed st.procs →
      DictInv (processed ++ rs) (rs.foldl (procStep now) st).procs := by
  intro rs
  induction rs with
  | nil => intro processed st _ h; simpa using h
  | cons r rest ih =>
    intro processed st hnd hinv
    have hfresh : r.pid ∉ processed.map RawProc.pid := by
      intro hmem
      rw [List.map_append] at hnd
      rw [List.nodup_append] at hnd
      exact hnd.2.2 hmem (by simp)
    have hstep := procStep_dictInv now hinv hfresh
    have hnd' : (((processed ++ [r]) ++ rest).map RawProc.pid).Nodup := by
      rw [List.append_assoc]
      simpa using hnd
    have := ih (processed ++ [r]) (procStep now st r) hnd' hstep
    simpa [List.append_assoc] using this

theorem mem_update_processes_list {rs : List RawProc} {now : ℚ}
    {net0 : List (Nat × (ℚ × ℚ))} {g : PGroup}
    (hnd : (rs.map RawProc.pid).Nodup)
    (hmem : g ∈ (update_processes_list rs now net0).1) :
    GroupInvariant rs g := by
  have hperm := List.perm_insertionSort (fun a b : PGroup => b.cpu ≤ a.cpu)
    ((rs.foldl (procStep now) ⟨[], net0⟩).procs.map Prod.snd)
  have hmem2 : g ∈ (rs.foldl (procStep now) ⟨[], net0⟩).procs.map Prod.snd :=
    hperm.mem_iff.mp hmem
  obtain ⟨e, he, heq⟩ := List.mem_map.mp hmem2
  have hinit : DictInv [] (AggState.mk [] net0).procs := by
    intro k g0 h
    simp at h
  have hinv := foldl_procStep_inv now rs [] ⟨[], net0⟩ (by simpa using hnd) hinit
  rw [List.nil_append] at hinv
  have := hinv e.1 e.2 (by simpa using he)
  rw [heq] at this
  exact this.2

theorem map_perPidGet : ∀ (l : List (Nat × PerPidDetail)),
    (l.map Prod.fst).Nodup →
    (l.map Prod.fst).map (fun p => (alookup p l).getD zeroDetail) = l.map Prod.snd := by
  intro l
  induction l with
  | nil => intro _; rfl
  | cons e rest ih =>
    intro hnd
    obtain ⟨k, v⟩ := e
    simp only [List.map_cons] at hnd ⊢
    rw [List.nodup_cons] at hnd
    congr 1
    · simp [alookup]
    · have hcongr : ∀ p ∈ rest.map Prod.fst,
          (alookup p ((k, v) :: rest)).getD zeroDetail
            = (alookup p rest).getD zeroDetail := by
        intro p hp
        have hne : p ≠ k := fun h => hnd.1 (h ▸ hp)
        simp [alookup, hne]
      rw [List.map_congr_left hcongr]
      exact ih hnd.2

theorem sum_over_pids {g : PGroup} (hkeys : g.per_pid.map Prod.fst = g.pids)
    (hnd : g.pids.Nodup) (f : PerPidDetail → ℚ) :
    (g.pids.map (fun p => f (perPidGet g p))).sum
      = (g.per_pid.map (fun e => f e.2)).sum := by
  have hnd' : (g.per_pid.map Prod.fst).Nodup := by rw [hkeys]; exact hnd
  have hmap := map_perPidGet g.per_pid hnd'
  have h2 : (g.per_pid.map Prod.fst).map (fun p => f (perPidGet g p))
      = g.per_pid.map (fun e => f e.2) := by
    have := congrArg (List.map f) hmap
    simpa [List.map_map, Function.comp, perPidGet] using this
  calc (g.pids.map (fun p => f (perPidGet g p))).sum
      = ((g.per_pid.map Prod.fst).map (fun p => f (perPidGet g p))).sum := by rw [hkeys]
    _ = (g.per_pid.map (fun e => f e.2)).sum := by rw [h2]

/-- Claim C6: every aggregated group has a non-empty member pid list, and each
of its four sums (cpu, memory, power, network) equals the sum over its member
pids of the retained per-pid drill-down values. -/
theorem C6_aggregation_sums (rs : List RawProc) (now : ℚ)
    (net0 : List (Nat × (ℚ × ℚ))) (hnd : (rs.map RawProc.pid).Nodup) :
    ∀ g ∈ (update_processes_list rs now net0).1,
      g.pids ≠ [] ∧
      g.cpu = (g.pids.map (fun p => (perPidGet g p).cpu)).sum ∧
      g.memory = (g.pids.map (fun p => (perPidGet g p).memory)).sum ∧
      g.power = (g.pids.map (fun p => (perPidGet g p).power)).sum ∧
      g.network = (g.pids.map (fun p => (perPidGet g p).network)).sum := by
  intro g hg
  obtain ⟨h1, h2, h3, h4, h5, h6, h7, -⟩ := mem_update_processes_list hnd hg
  refine ⟨h1, ?_, ?_, ?_, ?_⟩
  · rw [sum_over_pids h3 h2]; exact h4
  · rw [sum_over_pids h3 h2]; exact h5
  · rw [sum_over_pids h3 h2]; exact h6
  · rw [sum_over_pids h3 h2]; exact h7

def C6WitnessSamples : List RawProc :=
  [⟨1, some "Chrome.exe", some 104857600, 4, some 1000⟩,
   ⟨2, some "chrome.exe", some 52428800, 2, some 2000⟩]

/-- Witness for C6: two samples of the same executable name, distinct pids. -/
theorem C6_aggregation_sums_witness :
    (C6WitnessSamples.map RawProc.pid).Nodup ∧
    ∀ g ∈ (update_processes_list C6WitnessSamples 0 []).1,
      g.pids ≠ [] ∧
      g.cpu = (g.pids.map (fun p => (perPidGet g p).cpu)).sum ∧
      g.memory = (g.pids.map (fun p => (perPidGet g p).memory)).sum ∧
      g.power = (g.pids.map (fun p => (perPidGet g p).power)).sum ∧
      g.network = (g.pids.map (fun p => (perPidGet g p).network)).sum :=
  ⟨by decide, C6_aggregation_sums C6WitnessSamples 0 [] (by decide)⟩

theorem nodup_all_eq {α : Type} {l : List α} {a : α} (hnd : l.Nodup)
    (hall : ∀ x ∈ l, x = a) (hmem : a ∈ l) : l = [a] := by
  cases l with
  | nil => simp at hmem
  | cons x t =>
    have hx : x = a := hall x (List.mem_cons_self x t)
    subst hx
    cases t with
    | nil => rfl
    | cons y t2 =>
      rw [List.nodup_cons] at hnd
      have hy : y = x := hall y (by simp)
      subst hy
      exact absurd (List.mem_cons_self y t2) hnd.1

/-- Claim C7: grouping merges a sample with others exactly when its lower-cased
name ends in ".exe": for such names the group key is the lower-cased name
itself, so equal lower-cased exe names share a key; every other name gets the
key name_pid, which is injective in (name, pid), so two distinct
non-executable-named processes are never merged — in an aggregation run with
distinct pids, the group holding a non-exe sample is exactly that singleton. -/
theorem C7_grouping_rule :
    (∀ (nl : String) (p : Nat), pyEndsWith nl ".exe" = true → groupKey nl p = nl) ∧
    (∀ (nl : String) (p : Nat), pyEndsWith nl ".exe" = false →
      groupKey nl p = nl ++ "_" ++ Nat.repr p) ∧
    (∀ (n1 n2 : String) (p1 p2 : Nat), pyEndsWith n1 ".exe" = false →
      pyEndsWith n2 ".exe" = false → groupKey n1 p1 = groupKey n2 p2 →
      n1 = n2 ∧ p1 = p2) ∧
    (∀ (rs : List RawProc) (now : ℚ) (net0 : List (Nat × (ℚ × ℚ))),
      (rs.map RawProc.pid).Nodup →
      ∀ r ∈ rs, pyEndsWith (pyLower (rawNameOf r)) ".exe" = false →
      ∀ g ∈ (update_processes_list rs now net0).1, r.pid ∈ g.pids →
        g.pids = [r.pid]) := by
  refine ⟨?_, ?_, ?_, ?_⟩
  · intro nl p h; simp [groupKey, h]
  · intro nl p h; simp [groupKey, h]
  · intro n1 n2 p1 p2 h1 h2 heq; exact groupKey_nonexe_inj h1 h2 heq
  · intro rs now net0 hnd r hr hexe g hg hpid
    obtain ⟨-, hnodup, -, -, -, -, -, h8⟩ := mem_update_processes_list hnd hg
    obtain ⟨r', hr', hrpid, hrkey⟩ := h8 r.pid hpid
    have hinj := List.inj_on_of_nodup_map hnd
    have hrr : r' = r := hinj hr' hr hrpid
    rw [hrr] at hrkey
    have hkey : g.key = groupKey (pyLower (rawNameOf r)) r.pid := hrkey.symm
    have hkey_not_exe : pyEndsWith g.key ".exe" = false := by
      rw [hkey]; exact groupKey_nonexe_not_exe hexe
    have hall : ∀ q ∈ g.pids, q = r.pid := by
      intro q hq
      obtain ⟨rq, hrq, hqpid, hqkey⟩ := h8 q hq
      by_cases hexq : pyEndsWith (pyLower (rawNameOf rq)) ".exe" = true
      · have hkq : procKey rq = pyLower (rawNameOf rq) := by
          simp [procKey, groupKey, hexq]
        rw [hkq] at hqkey
        rw [← hqkey, hexq] at hkey_not_exe
        exact absurd hkey_not_exe (by simp)
      · rw [Bool.not_eq_true] at hexq
        have hk2 : groupKey (pyLower (rawNameOf rq)) rq.pid
            = groupKey (pyLower (rawNameOf r)) r.pid := hqkey.trans hkey
        obtain ⟨-, hp⟩ := groupKey_nonexe_inj hexq hexe hk2
        rw [← hqpid]; exact hp
    exact nodup_all_eq hnodup hall hpid

def C7WitnessSamples : List RawProc :=
  [⟨1, some "bash", some 0, 1, none⟩, ⟨2, some "bash", some 0, 1, none⟩]

/-- Witness for C7: an exe name keeps its lower-cased key; a non-exe name gets
the name_pid key; the key is injective at concrete inputs; and in a run with
two same-named non-exe samples, the group holding pid 1 is the singleton. -/
theorem C7_grouping_rule_witness :
    (pyEndsWith "chrome.exe" ".exe" = true ∧ groupKey "chrome.exe" 4 = "chrome.exe") ∧
    (pyEndsWith "bash" ".exe" = false ∧
      groupKey "bash" 7 = "bash" ++ "_" ++ Nat.repr 7 ∧ ("bash" = "bash" ∧ 7 = 7)) ∧
    ((C7WitnessSamples.map RawProc.pid).Nodup ∧
      (⟨1, some "bash", some 0, 1, none⟩ : RawProc) ∈ C7WitnessSamples ∧
      pyEndsWith (pyLower (rawNameOf ⟨1, some "bash", some 0, 1, none⟩)) ".exe" = false ∧
      ∀ g ∈ (update_processes_list C7WitnessSamples 0 []).1,
        (1 : Nat) ∈ g.pids → g.pids = [1]) :=
  ⟨⟨by decide, C7_grouping_rule.1 "chrome.exe" 4 (by decide)⟩,
   ⟨by decide, C7_grouping_rule.2.1 "bash" 7 (by decide),
     C7_grouping_rule.2.2.1 "bash" "bash" 7 7 (by decide) (by decide) rfl⟩,
   ⟨by decide, by decide, by decide,
     C7_grouping_rule.2.2.2 C7WitnessSamples 0 [] (by decide)
       ⟨1, some "bash", some 0, 1, none⟩ (by decide) (by decide)⟩⟩
